import Mathlib

/-!
Verification development for the Hermes durability core: the WAL record
codec (`src/wal/record.go`), the snapshot codec (`src/snapshot/snapshot.go`),
and the `walStore` decorator (`src/store/wal_store.go`,
`src/store/locked_store.go`, `src/store/write.go`).

Go strings are modelled as `List Char`; Go byte slices as `List Nat`
(each element intended `< 256`); Go `int64` as `Int` (with explicit range
hypotheses where the 64-bit bound matters); the Go map backing the
in-memory store as an association list observed only through
`memGet`/`memSet`/`memRemove`.
-/

namespace Hermes

/-! ## Bytes and entries -/

/-- `store.Entry` (src/store/locked_store.go, `Entry` struct):
`Value []byte` and `ExpiresAtMillis int64`, where 0 means no expiration. -/
structure Entry where
  Value : List Nat
  ExpiresAtMillis : Int
deriving DecidableEq, Repr

/-- The in-memory map of the core store (`store.data map[string]Entry`),
modelled as an association list observed through get/set/remove. -/
def Mem : Type := List (List Char × Entry)

instance : DecidableEq Mem := by
  unfold Mem
  infer_instance

/-- Go map read `s.data[key]`. -/
def memGet : Mem → List Char → Option Entry
  | [], _ => none
  | (k', v) :: rest, k => if k' = k then some v else memGet rest k

/-- Go map delete `delete(s.data, key)`. -/
def memRemove : Mem → List Char → Mem
  | [], _ => []
  | (k', v) :: rest, k =>
      if k' = k then memRemove rest k else (k', v) :: memRemove rest k

/-- Go map assignment `s.data[key] = value` (extensionally: the new binding
shadows any previous binding of the key). -/
def memSet (m : Mem) (k : List Char) (v : Entry) : Mem :=
  (k, v) :: memRemove m k

/-! ## Core in-memory store operations

The millisecond-based core `store` (`Read`/`Expire` over `ExpiresAtMillis`)
is referenced by `Entry` and `walStore` in src but its method bodies are
not among the source files; they are modelled from the spec below.
`now` is the wall-clock Unix-millisecond count at the call. -/

/-- Modelled from the spec: the core store's `Read` with lazy expiry
(missing from src; spec §4.4 read path: "if an entry's `expires_at_ms` is
non-zero and the current wall-clock millisecond count is `≥ expires_at_ms`,
the entry is removed and the read observes absence"; `Entry` in src
documents 0 as "no expiration"). Returns the read result and the
possibly-mutated map. -/
def storeRead (now : Int) (m : Mem) (k : List Char) : Option Entry × Mem :=
  match memGet m k with
  | none => (none, m)
  | some e =>
      if e.ExpiresAtMillis ≠ 0 ∧ now ≥ e.ExpiresAtMillis then
        (none, memRemove m k)
      else (some e, m)

/-- Modelled from the spec: the core store's `Expire(key, deadline_ms)`
(missing from src; spec §6.1: "false if key absent or already expired",
otherwise the entry's expiry is set to the absolute deadline). -/
def storeExpire (now : Int) (m : Mem) (k : List Char) (deadline : Int) :
    Bool × Mem :=
  match memGet m k with
  | none => (false, m)
  | some e =>
      if e.ExpiresAtMillis ≠ 0 ∧ now ≥ e.ExpiresAtMillis then
        (false, memRemove m k)
      else (true, memSet m k { e with ExpiresAtMillis := deadline })

/-- `store.PutMode` (src/store/locked_store.go): Overwrite / IfAbsent / Update. -/
inductive PutMode where
  | putOverwrite
  | putIfAbsent
  | putUpdate
deriving DecidableEq, Repr

/-- Errors surfaced by the write path (src/store/locked_store.go:
`ErrKeyExists`, `ErrKeyNotFound`; `walAppendFailed` stands for the I/O
error returned by a failing `wal.Append`). -/
inductive WriteErr where
  | keyExists
  | keyNotFound
  | walAppendFailed
deriving DecidableEq, Repr

/-- The core store's `Write` dispatched through `putFactories`
(src/store/locked_store.go: `overWriteStrategy`, `absentStrategy`,
`updateStrategy`; the strategies use the raw map `get`, not the
lazy-expiring `Read`). -/
def storeWriteMem (m : Mem) (k : List Char) (v : Entry) (mode : PutMode) :
    Option WriteErr × Mem :=
  match mode with
  | .putOverwrite => (none, memSet m k v)
  | .putIfAbsent =>
      match memGet m k with
      | some _ => (some .keyExists, m)
      | none => (none, memSet m k v)
  | .putUpdate =>
      match memGet m k with
      | none => (some .keyNotFound, m)
      | some _ => (none, memSet m k v)

/-! ## WAL records -/

/-- `wal.RecordType` (src/wal/record.go). -/
inductive RecordType where
  | recordSet
  | recordExpire
deriving DecidableEq, Repr

/-- `wal.WALRecord` (src/wal/record.go): `Type`, `Key`, `Value`, `Expire`.
The Go `Value string` is a byte string, modelled as bytes. -/
structure WALRecord where
  rtype : RecordType
  key : List Char
  value : List Nat
  expire : Int
deriving DecidableEq, Repr

/-! ## walStore state and operations (src/store/wal_store.go) -/

/-- The observable state of a `walStore`: the wrapped in-memory map and the
sequence of records successfully appended to the WAL. -/
structure WalSt where
  mem : Mem
  walRecords : List WALRecord
deriving DecidableEq

/-- Steps 3–5 of `walStore.Write` (src/store/wal_store.go lines 333–344):
`value.ExpiresAtMillis = 0`, WAL append, then memory mutation. -/
def walStoreWriteAppend (wal : List WALRecord) (m1 : Mem) (k : List Char)
    (v : Entry) (mode : PutMode) (appendOk : Bool) : Option WriteErr × WalSt :=
  let v0 : Entry := { v with ExpiresAtMillis := 0 }
  if appendOk then
    let recd : WALRecord :=
      { rtype := .recordSet, key := k, value := v0.Value, expire := 0 }
    let res := storeWriteMem m1 k v0 mode
    (res.1, { mem := res.2, walRecords := wal ++ [recd] })
  else
    (some .walAppendFailed, { mem := m1, walRecords := wal })

/-- `walStore.Write` (src/store/wal_store.go lines 314–345): validate
against memory (fail fast), reset the entry's TTL, append a `Set` record to
the WAL, then mutate memory. `appendOk` is false when the `wal.Append`
call fails (I/O error); a failed append reaches the WAL file with no
record. -/
def walStoreWrite (now : Int) (st : WalSt) (k : List Char) (v : Entry)
    (mode : PutMode) (appendOk : Bool) : Option WriteErr × WalSt :=
  -- 1. Validation logic (fail fast), before touching disk
  match mode with
  | .putIfAbsent =>
      match storeRead now st.mem k with
      | (some _, m1) => (some .keyExists, { st with mem := m1 })
      | (none, m1) => walStoreWriteAppend st.walRecords m1 k v .putIfAbsent appendOk
  | .putUpdate =>
      match storeRead now st.mem k with
      | (none, m1) => (some .keyNotFound, { st with mem := m1 })
      | (some _, m1) => walStoreWriteAppend st.walRecords m1 k v .putUpdate appendOk
  | .putOverwrite => walStoreWriteAppend st.walRecords st.mem k v .putOverwrite appendOk

/-- `walStore.Expire` (src/store/wal_store.go lines 358–381): absent key →
false (not logged); negative deadline → false (not logged); failed append
→ false; otherwise append an `Expire` record and apply to memory. -/
def walStoreExpire (now : Int) (st : WalSt) (k : List Char) (deadline : Int)
    (appendOk : Bool) : Bool × WalSt :=
  match storeRead now st.mem k with
  | (none, m1) => (false, { st with mem := m1 })
  | (some _, m1) =>
      if deadline < 0 then (false, { st with mem := m1 })
      else if appendOk then
        let recd : WALRecord :=
          { rtype := .recordExpire, key := k, value := [], expire := deadline }
        let res := storeExpire now m1 k deadline
        (res.1, { mem := res.2, walRecords := st.walRecords ++ [recd] })
      else (false, { st with mem := m1 })

/-- The pre-append validation of `walStore.Write`, as the spec states it:
`IfAbsent` requires the key to read as absent, `Update` requires it to read
as present, `Overwrite` checks nothing. -/
def writeValidationPasses (now : Int) (m : Mem) (k : List Char)
    (mode : PutMode) : Prop :=
  match mode with
  | .putIfAbsent => (storeRead now m k).1 = none
  | .putUpdate => (storeRead now m k).1 ≠ none
  | .putOverwrite => True

instance (now : Int) (m : Mem) (k : List Char) (mode : PutMode) :
    Decidable (writeValidationPasses now m k mode) := by
  unfold writeValidationPasses
  cases mode <;> infer_instance

/-- The pre-append validation of `walStore.Expire`: key reads as present
and the deadline is non-negative. -/
def expireValidationPasses (now : Int) (m : Mem) (k : List Char)
    (deadline : Int) : Prop :=
  (storeRead now m k).1 ≠ none ∧ 0 ≤ deadline

instance (now : Int) (m : Mem) (k : List Char) (deadline : Int) :
    Decidable (expireValidationPasses now m k deadline) := by
  unfold expireValidationPasses
  infer_instance

/-- Observational equivalence of two memory states at an instant: every
key reads the same. -/
def memEquivAt (now : Int) (m1 m2 : Mem) : Prop :=
  ∀ k, (storeRead now m1 k).1 = (storeRead now m2 k).1

/-! ## String helpers used by the record codec (Go strings package) -/

/-- Whitespace as used by `strings.TrimSpace` / `strings.Fields`
(`unicode.IsSpace`), restricted to its ASCII members — the only ones the
codec's line grammar can produce. -/
def isSpaceGo (c : Char) : Bool :=
  c = ' ' ∨ c = '\t' ∨ c = '\n' ∨ c.toNat = 11 ∨ c.toNat = 12 ∨ c.toNat = 13

/-- `strings.TrimSpace`: drop leading and trailing whitespace. -/
def trimSpace (l : List Char) : List Char :=
  ((l.dropWhile isSpaceGo).reverse.dropWhile isSpaceGo).reverse

/-- `strings.Fields`: split around runs of whitespace. -/
def fieldsGo : List Char → List (List Char)
  | [] => []
  | c :: cs =>
      if isSpaceGo c then fieldsGo cs
      else (c :: cs.takeWhile (fun x => !isSpaceGo x)) ::
        fieldsGo (cs.dropWhile (fun x => !isSpaceGo x))
termination_by l => l.length
decreasing_by
  · simp only [List.length_cons]
    omega
  · simp only [List.length_cons]
    have h : ∀ (l : List Char), (l.dropWhile (fun x => !isSpaceGo x)).length ≤ l.length := by
      intro l
      induction l with
      | nil => simp [List.dropWhile]
      | cons x xs ih =>
        simp only [List.dropWhile]
        split
        · exact Nat.le_succ_of_le ih
        · simp
    exact Nat.lt_succ_of_le (h cs)

/-- `strings.ToUpper` on one character (ASCII range). -/
def toUpperChar (c : Char) : Char :=
  if 97 ≤ c.toNat ∧ c.toNat ≤ 122 then Char.ofNat (c.toNat - 32) else c

/-- `strings.ToUpper`. -/
def toUpperGo (l : List Char) : List Char := l.map toUpperChar

/-! ## Standard base64 (encoding/base64, StdEncoding) -/

/-- The standard base64 alphabet, as index → character. -/
def b64EncChar (i : Nat) : Char :=
  if i < 26 then Char.ofNat (65 + i)
  else if i < 52 then Char.ofNat (97 + (i - 26))
  else if i < 62 then Char.ofNat (48 + (i - 52))
  else if i = 62 then '+'
  else '/'

/-- The standard base64 alphabet, as character → index. -/
def b64DecChar (c : Char) : Option Nat :=
  if 65 ≤ c.toNat ∧ c.toNat ≤ 90 then some (c.toNat - 65)
  else if 97 ≤ c.toNat ∧ c.toNat ≤ 122 then some (c.toNat - 97 + 26)
  else if 48 ≤ c.toNat ∧ c.toNat ≤ 57 then some (c.toNat - 48 + 52)
  else if c = '+' then some 62
  else if c = '/' then some 63
  else none

/-- `base64.StdEncoding.EncodeToString`: 3-byte groups become 4 characters;
a trailing 1- or 2-byte group is padded with `=`. -/
def base64Encode : List Nat → List Char
  | [] => []
  | [a] => [b64EncChar (a / 4), b64EncChar (a % 4 * 16), '=', '=']
  | [a, b] =>
      [b64EncChar (a / 4), b64EncChar (a % 4 * 16 + b / 16),
       b64EncChar (b % 16 * 4), '=']
  | a :: b :: c :: rest =>
      b64EncChar (a / 4) :: b64EncChar (a % 4 * 16 + b / 16) ::
      b64EncChar (b % 16 * 4 + c / 64) :: b64EncChar (c % 64) ::
      base64Encode rest

/-- `base64.StdEncoding.DecodeString`: input must be whole 4-character
quanta; `=` padding is allowed only to close the final quantum; any
character outside the alphabet fails. (Go additionally skips `\r`/`\n`,
which cannot occur inside a whitespace-split token.) -/
def base64Decode : List Char → Option (List Nat)
  | [] => some []
  | c1 :: c2 :: c3 :: c4 :: rest =>
      match b64DecChar c1, b64DecChar c2 with
      | some v1, some v2 =>
          if c3 = '=' then
            if c4 = '=' ∧ rest = [] then some [v1 * 4 + v2 / 16] else none
          else
            match b64DecChar c3 with
            | some v3 =>
                if c4 = '=' then
                  if rest = [] then
                    some [v1 * 4 + v2 / 16, v2 % 16 * 16 + v3 / 4]
                  else none
                else
                  match b64DecChar c4 with
                  | some v4 =>
                      (base64Decode rest).map (fun bs =>
                        (v1 * 4 + v2 / 16) :: (v2 % 16 * 16 + v3 / 4) ::
                        (v3 % 4 * 64 + v4) :: bs)
                  | none => none
            | none => none
      | _, _ => none
  | _ => none

/-! ## Decimal integers (fmt %d and strconv.ParseInt) -/

/-- Decimal digits of a natural number, most significant first
(the `%d` formatting of a non-negative int64). -/
def natToChars (n : Nat) : List Char :=
  if h : n < 10 then [Char.ofNat (48 + n)]
  else natToChars (n / 10) ++ [Char.ofNat (48 + n % 10)]
decreasing_by
  exact Nat.div_lt_self (by omega) (by omega)

/-- Value of one decimal digit character. -/
def digitVal (c : Char) : Option Nat :=
  if 48 ≤ c.toNat ∧ c.toNat ≤ 57 then some (c.toNat - 48) else none

/-- Accumulate decimal digits; fails at the first non-digit. -/
def parseDigitsAux : List Char → Nat → Option Nat
  | [], acc => some acc
  | c :: cs, acc =>
      match digitVal c with
      | some d => parseDigitsAux cs (acc * 10 + d)
      | none => none

/-- A non-empty all-digit string, as a natural number. -/
def parseDigits : List Char → Option Nat
  | [] => none
  | c :: cs => parseDigitsAux (c :: cs) 0

/-- `strconv.ParseInt(s, 10, 64)`: optional sign, non-empty digits,
64-bit range check (out-of-range input is an error). -/
def parseInt64 (s : List Char) : Option Int :=
  match s with
  | [] => none
  | c :: rest =>
      if c = '+' then
        (parseDigits rest).bind fun n =>
          if n ≤ 2 ^ 63 - 1 then some (n : Int) else none
      else if c = '-' then
        (parseDigits rest).bind fun n =>
          if n ≤ 2 ^ 63 then some (-(n : Int)) else none
      else
        (parseDigits (c :: rest)).bind fun n =>
          if n ≤ 2 ^ 63 - 1 then some (n : Int) else none

/-! ## Record codec (src/wal/record.go) -/

/-- The `SET` command token. -/
def commandSet : List Char := ['S', 'E', 'T']

/-- The `EXPIRE` command token. -/
def commandExpire : List Char := ['E', 'X', 'P', 'I', 'R', 'E']

/-- Errors of `DecodeRecord`: `wal.ErrInvalidRecord`, or the
`base64.CorruptInputError` passed through from `DecodeString` (distinct
from `ErrInvalidRecord`). -/
inductive DecodeErr where
  | invalidRecord
  | base64Error
deriving DecidableEq, Repr

/-- `wal.EncodeRecord` (src/wal/record.go lines 51–72). `none` is
`ErrInvalidRecord`. -/
def EncodeRecord (r : WALRecord) : Option (List Char) :=
  match r.rtype with
  | .recordSet =>
      if r.key = [] ∨ r.value = [] then none
      else
        some (commandSet ++ [' '] ++ r.key ++ [' '] ++
          base64Encode r.value ++ ['\n'])
  | .recordExpire =>
      if r.key = [] ∨ r.expire < 0 then none
      else
        some (commandExpire ++ [' '] ++ r.key ++ [' '] ++
          natToChars r.expire.toNat ++ ['\n'])

/-- `wal.DecodeRecord` (src/wal/record.go lines 84–131): trim, reject the
empty line, split into fields, dispatch on the upper-cased command. -/
def DecodeRecord (line : List Char) : Except DecodeErr WALRecord :=
  let l := trimSpace line
  if l = [] then .error .invalidRecord
  else
    match fieldsGo l with
    | [] => .error .invalidRecord
    | cmd :: args =>
        if toUpperGo cmd = commandSet then
          match args with
          | [key, val] =>
              match base64Decode val with
              | some bytes =>
                  .ok { rtype := .recordSet, key := key, value := bytes, expire := 0 }
              | none => .error .base64Error
          | _ => .error .invalidRecord
        else if toUpperGo cmd = commandExpire then
          match args with
          | [key, dstr] =>
              match parseInt64 dstr with
              | some e =>
                  .ok { rtype := .recordExpire, key := key, value := [], expire := e }
              | none => .error .invalidRecord
          | _ => .error .invalidRecord
        else .error .invalidRecord

/-- The decode contract as the spec words it (§4.1): split the line on
runs of whitespace (which itself discards surrounding whitespace); a
`SET` line succeeds exactly when it has exactly 3 tokens and a valid
base64 third token (invalid base64 being a distinct decode error); an
`EXPIRE` line succeeds exactly when it has exactly 3 tokens and a base-10
64-bit-integer third token; every other shape is `InvalidRecord`. -/
def specDecodeRecord (line : List Char) : Except DecodeErr WALRecord :=
  match fieldsGo line with
  | [cmd, key, third] =>
      if toUpperGo cmd = commandSet then
        match base64Decode third with
        | some bytes =>
            .ok { rtype := .recordSet, key := key, value := bytes, expire := 0 }
        | none => .error .base64Error
      else if toUpperGo cmd = commandExpire then
        match parseInt64 third with
        | some e =>
            .ok { rtype := .recordExpire, key := key, value := [], expire := e }
        | none => .error .invalidRecord
      else .error .invalidRecord
  | _ => .error .invalidRecord

/-! ## WAL replay and startup recovery
(src/wal/wal.go `Replay`, src/store/wal_store.go `NewWalStore` phase 2) -/

/-- Errors that abort WAL replay: a decode error (`ErrInvalidRecord` or a
base64 error), or an error returned by the recovery callback — the
callback returns `wal.ErrInvalidRecord` for a negative `EXPIRE` deadline
(the same error value as the decoder's), and passes through any
`store.Write` error. -/
inductive ReplayErr where
  | invalidRecord
  | base64Error
  | storeErr (e : WriteErr)
deriving DecidableEq, Repr

/-- The recovery callback installed by `NewWalStore` (src/store/wal_store.go
lines 244–266): `Set` is applied with `PutOverwrite` and
`ExpiresAtMillis: 0`; `Expire` with a negative deadline is rejected with
`ErrInvalidRecord`; otherwise `store.Expire` is called and its boolean
result ignored. -/
def replayApply (now : Int) (m : Mem) (r : WALRecord) : Except ReplayErr Mem :=
  match r.rtype with
  | .recordSet =>
      match storeWriteMem m r.key { Value := r.value, ExpiresAtMillis := 0 } .putOverwrite with
      | (some e, _) => .error (.storeErr e)
      | (none, m') => .ok m'
  | .recordExpire =>
      if r.expire < 0 then .error .invalidRecord
      else .ok (storeExpire now m r.key r.expire).2

/-- `wal.Replay` (src/wal/wal.go lines 177–201) driving the recovery
callback: scan the WAL lines in file order, trim each, skip blank lines,
decode (aborting on the decoder's error), and apply (aborting on the
callback's error). -/
def walReplay (now : Int) : List (List Char) → Mem → Except ReplayErr Mem
  | [], m => .ok m
  | line :: rest, m =>
      let l := trimSpace line
      if l = [] then walReplay now rest m
      else
        match DecodeRecord l with
        | .error .invalidRecord => .error .invalidRecord
        | .error .base64Error => .error .base64Error
        | .ok r =>
            match replayApply now m r with
            | .error e => .error e
            | .ok m' => walReplay now rest m'

/-! ## Snapshot codec (src/snapshot/snapshot.go) -/

/-- `snapshot.Item`: `Key string` (a byte string), `Value []byte`,
`ExpiresAt int64`. The key is modelled as bytes like the value. -/
structure Item where
  key : List Nat
  value : List Nat
  expiresAt : Int
deriving DecidableEq, Repr

/-- `width` little-endian bytes of `n` (which is reduced mod `2^(8*width)`
by construction of the callers). -/
def toLE : Nat → Nat → List Nat
  | 0, _ => []
  | w + 1, n => n % 256 :: toLE w (n / 256)

/-- The value of a little-endian byte list. -/
def leVal : List Nat → Nat
  | [] => 0
  | b :: rest => b % 256 + 256 * leVal rest

/-- Reinterpret a 32-bit unsigned value as Go `int32`. -/
def sign32 (v : Nat) : Int :=
  if v < 2 ^ 31 then (v : Int) else (v : Int) - 2 ^ 32

/-- Reinterpret a 64-bit unsigned value as Go `int64`. -/
def sign64 (v : Nat) : Int :=
  if v < 2 ^ 63 then (v : Int) else (v : Int) - 2 ^ 64

/-- One item's wire image (src/snapshot/snapshot.go `Write`, format
`[KeyLen:int32][KeyBytes][ValLen:int32][ValueBytes][Expire:int64]`, little
endian; Go's `int32(len(...))` truncates and `binary.Write` emits the
two's-complement bytes). -/
def encodeItem (it : Item) : List Nat :=
  toLE 4 (it.key.length % 2 ^ 32) ++ it.key ++
  toLE 4 (it.value.length % 2 ^ 32) ++ it.value ++
  toLE 8 ((it.expiresAt % 2 ^ 64).toNat)

/-- `snapshot.Write` with a non-failing writer: the items of the stream,
in order, each encoded by `encodeItem`. -/
def snapshotWrite : List Item → List Nat
  | [] => []
  | it :: rest => encodeItem it ++ snapshotWrite rest

/-- `snapshot.Load` (src/snapshot/snapshot.go lines 95–138). Returns the
items delivered to the caller's `set` callback, in call order, and whether
loading aborted with an error: EOF at an item boundary is success; a short
read inside an item, or a negative length field, aborts with an error
after the items already delivered. -/
def snapshotLoad (bytes : List Nat) : List Item × Bool :=
  if bytes = [] then ([], false)
  else if bytes.length < 4 then ([], true)
  else
    let keyLen := sign32 (leVal (bytes.take 4))
    let r1 := bytes.drop 4
    if keyLen < 0 then ([], true)
    else if r1.length < keyLen.toNat then ([], true)
    else
      let key := r1.take keyLen.toNat
      let r2 := r1.drop keyLen.toNat
      if r2.length < 4 then ([], true)
      else
        let valLen := sign32 (leVal (r2.take 4))
        let r3 := r2.drop 4
        if valLen < 0 then ([], true)
        else if r3.length < valLen.toNat then ([], true)
        else
          let value := r3.take valLen.toNat
          let r4 := r3.drop valLen.toNat
          if r4.length < 8 then ([], true)
          else
            let exp := sign64 (leVal (r4.take 8))
            let r5 := r4.drop 8
            let res := snapshotLoad r5
            ({ key := key, value := value, expiresAt := exp } :: res.1, res.2)
termination_by bytes.length
decreasing_by
  simp only [List.length_drop]
  omega

/-! ## Compaction (src/store/locked_store.go `walStore.Compact`, lines 96–166) -/

/-- Compaction errors, one per failure site of `Compact`. -/
inductive CompactErr where
  | notIterable
  | notRotatable
  | mkdirFailed
  | createTempFailed
  | writeFailed
  | syncFailed
  | renameFailed
  | rotateFailed
deriving DecidableEq, Repr

/-- The externally visible steps `Compact` performs, in order of
occurrence (an event is recorded when the step is attempted). -/
inductive CompactEv where
  | evCreateTemp
  | evWriteSnap
  | evSyncTemp
  | evRenameSnap
  | evRotateWal
deriving DecidableEq, Repr

/-- The on-disk state `Compact` manipulates: the snapshot path's content
and whether this compaction's temp file exists. -/
structure CompactFS where
  snapshot : Option (List Item)
  tempExists : Bool
deriving DecidableEq, Repr

/-- Success/failure of each effectful step of `Compact`, plus the two
capability checks. -/
structure CompactIn where
  iterable : Bool
  rotatable : Bool
  mkdirOk : Bool
  createTempOk : Bool
  writeOk : Bool
  syncOk : Bool
  renameOk : Bool
  rotateOk : Bool
deriving DecidableEq, Repr

/-- `walStore.Compact` (src/store/locked_store.go lines 96–166): capability
checks, mkdir, create temp, stream the snapshot into the temp file, fsync,
atomically rename over the snapshot path, then rotate the WAL; a deferred
cleanup removes the temp file whenever the function returns an error (after
a successful rename the temp path no longer exists, so the removal is a
no-op). `items` is the live store content streamed through the codec. -/
def walStoreCompact (c : CompactIn) (items : List Item) (fs : CompactFS) :
    Option CompactErr × CompactFS × List CompactEv :=
  if !c.iterable then (some .notIterable, fs, [])
  else if !c.rotatable then (some .notRotatable, fs, [])
  else if !c.mkdirOk then (some .mkdirFailed, fs, [])
  else if !c.createTempOk then (some .createTempFailed, fs, [])
  else if !c.writeOk then
    (some .writeFailed, { fs with tempExists := false },
      [.evCreateTemp, .evWriteSnap])
  else if !c.syncOk then
    (some .syncFailed, { fs with tempExists := false },
      [.evCreateTemp, .evWriteSnap, .evSyncTemp])
  else if !c.renameOk then
    (some .renameFailed, { fs with tempExists := false },
      [.evCreateTemp, .evWriteSnap, .evSyncTemp, .evRenameSnap])
  else if !c.rotateOk then
    (some .rotateFailed, { snapshot := some items, tempExists := false },
      [.evCreateTemp, .evWriteSnap, .evSyncTemp, .evRenameSnap, .evRotateWal])
  else
    (none, { snapshot := some items, tempExists := false },
      [.evCreateTemp, .evWriteSnap, .evSyncTemp, .evRenameSnap, .evRotateWal])

/-! ## Shutdown (src/store/wal_store.go `walStore.Close`, lines 398–409) -/

/-- Errors `Close` can return: the final best-effort `Compact`'s error, or
the WAL close error. -/
inductive CloseErr where
  | compactFailed (e : CompactErr)
  | walCloseFailed
deriving DecidableEq, Repr

/-- Outcome of one `walStore.Close` call: Go's `close` on an
already-closed channel panics, otherwise `Close` returns an error and
either did or did not reach `s.wal.Close()`. -/
inductive CloseOutcome where
  | panicked
  | returned (err : Option CloseErr) (walClosed : Bool)
deriving DecidableEq, Repr

/-- `walStore.Close` (src/store/wal_store.go lines 398–409):
`close(s.doneChan)` — which panics if a previous `Close` already closed
it — then `wg.Wait()`, then the final `Compact()` whose error is returned
immediately (skipping `s.wal.Close()`), then `s.wal.Close()`. -/
def walStoreClose (alreadyClosed : Bool) (compactErr : Option CompactErr)
    (walCloseOk : Bool) : CloseOutcome :=
  if alreadyClosed then .panicked
  else
    match compactErr with
    | some e => .returned (some (.compactFailed e)) false
    | none => .returned (if walCloseOk then none else some .walCloseFailed) true

/-! # Theorems -/

/-! ## Association-list (Go map) lemmas -/

theorem memGet_memRemove_self (m : Mem) (k : List Char) :
    memGet (memRemove m k) k = none := by
  induction m with
  | nil => rfl
  | cons p rest ih =>
      obtain ⟨k', v⟩ := p
      by_cases h : k' = k
      · simpa [memRemove, h] using ih
      · simpa [memRemove, memGet, h] using ih

theorem memGet_memRemove_ne (m : Mem) {k k' : List Char} (h : k' ≠ k) :
    memGet (memRemove m k) k' = memGet m k' := by
  induction m with
  | nil => rfl
  | cons p rest ih =>
      obtain ⟨k'', v⟩ := p
      by_cases h2 : k'' = k
      · subst h2
        simp [memRemove, memGet, Ne.symm h, ih]
      · by_cases h3 : k'' = k'
        · simp [memRemove, memGet, h2, h3, h]
        · simp [memRemove, memGet, h2, h3, ih]

theorem memGet_memSet_self (m : Mem) (k : List Char) (v : Entry) :
    memGet (memSet m k v) k = some v := by
  simp [memSet, memGet]

theorem memGet_memSet_ne (m : Mem) {k k' : List Char} (v : Entry) (h : k' ≠ k) :
    memGet (memSet m k v) k' = memGet m k' := by
  simp [memSet, memGet, h, Ne.symm h, memGet_memRemove_ne m h]

/-! ## storeRead / storeExpire characterizations -/

theorem storeRead_of_get_none {m : Mem} {k : List Char} (now : Int)
    (h : memGet m k = none) : storeRead now m k = (none, m) := by
  simp [storeRead, h]

theorem storeRead_of_expired {m : Mem} {k : List Char} {e : Entry} (now : Int)
    (h : memGet m k = some e)
    (hx : e.ExpiresAtMillis ≠ 0 ∧ now ≥ e.ExpiresAtMillis) :
    storeRead now m k = (none, memRemove m k) := by
  simp [storeRead, h, hx]

theorem storeRead_of_live {m : Mem} {k : List Char} {e : Entry} (now : Int)
    (h : memGet m k = some e)
    (hx : ¬(e.ExpiresAtMillis ≠ 0 ∧ now ≥ e.ExpiresAtMillis)) :
    storeRead now m k = (some e, m) := by
  simp only [storeRead, h]
  rw [if_neg hx]

theorem storeExpire_of_live {m : Mem} {k : List Char} {e : Entry} (now d : Int)
    (h : memGet m k = some e)
    (hx : ¬(e.ExpiresAtMillis ≠ 0 ∧ now ≥ e.ExpiresAtMillis)) :
    storeExpire now m k d = (true, memSet m k { e with ExpiresAtMillis := d }) := by
  simp only [storeExpire, h]
  rw [if_neg hx]

/-- The mutation a lazy-expiring read may perform is invisible to any other
read at the same instant. -/
theorem storeRead_snd_memEquiv (now : Int) (m : Mem) (k : List Char) :
    memEquivAt now (storeRead now m k).2 m := by
  intro k'
  cases hg : memGet m k with
  | none => rw [storeRead_of_get_none now hg]
  | some e =>
      by_cases hx : e.ExpiresAtMillis ≠ 0 ∧ now ≥ e.ExpiresAtMillis
      · rw [storeRead_of_expired now hg hx]
        by_cases hk : k' = k
        · have h1 : storeRead now (memRemove m k) k' = (none, memRemove m k) := by
            rw [hk]
            exact storeRead_of_get_none now (memGet_memRemove_self m k)
          have h2 : storeRead now m k' = (none, memRemove m k) := by
            rw [hk]
            exact storeRead_of_expired now hg hx
          rw [h1, h2]
        · cases hg' : memGet m k' with
          | none =>
              rw [storeRead_of_get_none now
                (by rw [memGet_memRemove_ne m hk]; exact hg')]
              rw [storeRead_of_get_none now hg']
          | some e' =>
              by_cases hx' : e'.ExpiresAtMillis ≠ 0 ∧ now ≥ e'.ExpiresAtMillis
              · rw [storeRead_of_expired now
                  (by rw [memGet_memRemove_ne m hk]; exact hg') hx']
                rw [storeRead_of_expired now hg' hx']
              · rw [storeRead_of_live now
                  (by rw [memGet_memRemove_ne m hk]; exact hg') hx']
                rw [storeRead_of_live now hg' hx']
      · rw [storeRead_of_live now hg hx]

/-! ## C1 — phantom-write protection -/

/-- C1: Phantom-write protection. For every `walStore` state: a `Write`
with `PutIfAbsent` on a key that reads as present returns `KeyExists` and
appends no WAL record; a `Write` with `PutUpdate` on a key that reads as
absent returns `KeyNotFound` and appends no record; an `Expire` on an
absent key, or with a negative deadline, returns false and appends no
record; and in general a `Write` or `Expire` appends a record only if the
pre-append validation passed. -/
theorem walStore_phantom_write_protection (now : Int) (st : WalSt)
    (k : List Char) (v : Entry) (deadline : Int) (mode : PutMode)
    (appendOk : Bool) :
    ((storeRead now st.mem k).1 ≠ none →
      walStoreWrite now st k v .putIfAbsent appendOk =
        (some .keyExists, { st with mem := (storeRead now st.mem k).2 })) ∧
    ((storeRead now st.mem k).1 = none →
      walStoreWrite now st k v .putUpdate appendOk =
        (some .keyNotFound, { st with mem := (storeRead now st.mem k).2 })) ∧
    ((storeRead now st.mem k).1 = none →
      walStoreExpire now st k deadline appendOk =
        (false, { st with mem := (storeRead now st.mem k).2 })) ∧
    (deadline < 0 →
      (walStoreExpire now st k deadline appendOk).1 = false ∧
      (walStoreExpire now st k deadline appendOk).2.walRecords = st.walRecords) ∧
    ((walStoreWrite now st k v mode appendOk).2.walRecords = st.walRecords ∨
      ∃ recd, (walStoreWrite now st k v mode appendOk).2.walRecords =
          st.walRecords ++ [recd] ∧ writeValidationPasses now st.mem k mode) ∧
    ((walStoreExpire now st k deadline appendOk).2.walRecords = st.walRecords ∨
      ∃ recd, (walStoreExpire now st k deadline appendOk).2.walRecords =
          st.walRecords ++ [recd] ∧ expireValidationPasses now st.mem k deadline) := by
  refine ⟨?_, ?_, ?_, ?_, ?_, ?_⟩
  · intro hpres
    cases hres : storeRead now st.mem k with
    | mk fst snd =>
        cases fst with
        | none => rw [hres] at hpres; simp at hpres
        | some e => simp [walStoreWrite, hres]
  · intro habs
    cases hres : storeRead now st.mem k with
    | mk fst snd =>
        cases fst with
        | none => simp [walStoreWrite, hres]
        | some e => rw [hres] at habs; simp at habs
  · intro habs
    cases hres : storeRead now st.mem k with
    | mk fst snd =>
        cases fst with
        | none => simp [walStoreExpire, hres]
        | some e => rw [hres] at habs; simp at habs
  · intro hneg
    cases hres : storeRead now st.mem k with
    | mk fst snd =>
        cases fst with
        | none => simp [walStoreExpire, hres]
        | some e => simp [walStoreExpire, hres, hneg]
  · cases mode with
    | putOverwrite =>
        cases appendOk with
        | false => left; simp [walStoreWrite, walStoreWriteAppend]
        | true =>
            right
            refine ⟨(⟨.recordSet, k, v.Value, 0⟩ : WALRecord), ?_, trivial⟩
            simp [walStoreWrite, walStoreWriteAppend]
    | putIfAbsent =>
        cases hres : storeRead now st.mem k with
        | mk fst snd =>
            cases fst with
            | some e => left; simp [walStoreWrite, hres]
            | none =>
                cases appendOk with
                | false => left; simp [walStoreWrite, hres, walStoreWriteAppend]
                | true =>
                    right
                    refine ⟨(⟨.recordSet, k, v.Value, 0⟩ : WALRecord), ?_, ?_⟩
                    · simp [walStoreWrite, hres, walStoreWriteAppend]
                    · show (storeRead now st.mem k).1 = none
                      rw [hres]
    | putUpdate =>
        cases hres : storeRead now st.mem k with
        | mk fst snd =>
            cases fst with
            | none => left; simp [walStoreWrite, hres]
            | some e =>
                cases appendOk with
                | false => left; simp [walStoreWrite, hres, walStoreWriteAppend]
                | true =>
                    right
                    refine ⟨(⟨.recordSet, k, v.Value, 0⟩ : WALRecord), ?_, ?_⟩
                    · simp [walStoreWrite, hres, walStoreWriteAppend]
                    · show (storeRead now st.mem k).1 ≠ none
                      rw [hres]
                      simp
  · cases hres : storeRead now st.mem k with
    | mk fst snd =>
        cases fst with
        | none => left; simp [walStoreExpire, hres]
        | some e =>
            by_cases hneg : deadline < 0
            · left; simp [walStoreExpire, hres, hneg]
            · cases appendOk with
              | false => left; simp [walStoreExpire, hres, hneg]
              | true =>
                  right
                  refine ⟨(⟨.recordExpire, k, [], deadline⟩ : WALRecord), ?_, ?_, by omega⟩
                  · simp [walStoreExpire, hres, hneg]
                  · show (storeRead now st.mem k).1 ≠ none
                    rw [hres]
                    simp

/-- C1 witness: concrete instances of each conjunct of the protection
theorem, at a one-entry store. -/
theorem walStore_phantom_write_protection_witness :
    ((storeRead 0 ([( ['a'], ⟨[1], 0⟩ )] : Mem) ['a']).1 ≠ none) ∧
    walStoreWrite 0 ⟨[( ['a'], ⟨[1], 0⟩ )], []⟩ ['a'] ⟨[2], 0⟩ .putIfAbsent true =
      (some .keyExists,
        { mem := [( ['a'], ⟨[1], 0⟩ )], walRecords := [] }) ∧
    walStoreWrite 0 ⟨[( ['a'], ⟨[1], 0⟩ )], []⟩ ['b'] ⟨[2], 0⟩ .putUpdate true =
      (some .keyNotFound,
        { mem := [( ['a'], ⟨[1], 0⟩ )], walRecords := [] }) ∧
    walStoreExpire 0 ⟨[( ['a'], ⟨[1], 0⟩ )], []⟩ ['b'] 7 true =
      (false, { mem := [( ['a'], ⟨[1], 0⟩ )], walRecords := [] }) ∧
    (walStoreExpire 0 ⟨[( ['a'], ⟨[1], 0⟩ )], []⟩ ['a'] (-3) true).1 = false := by
  refine ⟨by decide, ?_, ?_, ?_, ?_⟩
  · exact ((walStore_phantom_write_protection 0 ⟨[( ['a'], ⟨[1], 0⟩ )], []⟩
      ['a'] ⟨[2], 0⟩ 7 .putOverwrite true).1 (by decide)).trans (by decide)
  · exact ((walStore_phantom_write_protection 0 ⟨[( ['a'], ⟨[1], 0⟩ )], []⟩
      ['b'] ⟨[2], 0⟩ 7 .putOverwrite true).2.1 (by decide)).trans (by decide)
  · exact ((walStore_phantom_write_protection 0 ⟨[( ['a'], ⟨[1], 0⟩ )], []⟩
      ['b'] ⟨[2], 0⟩ 7 .putOverwrite true).2.2.1 (by decide)).trans (by decide)
  · exact ((walStore_phantom_write_protection 0 ⟨[( ['a'], ⟨[1], 0⟩ )], []⟩
      ['a'] ⟨[2], 0⟩ (-3) .putOverwrite true).2.2.2.1 (by decide)).1

/-! ## C2 — write-path atomicity on WAL failure -/

/-- C2 counterexample: the claim "the in-memory store is left unchanged"
is not literally true. With an already-expired entry under the key, the
pre-append validation read of `Write(PutIfAbsent)` lazily removes the
expired entry; when the WAL append then fails, the error is returned but
the map has physically changed (the dead entry is gone). -/
theorem walStore_wal_failure_counterexample :
    (walStoreWrite 10 ⟨[( ['k'], ⟨[118], 5⟩ )], []⟩ ['k'] ⟨[120], 0⟩
        .putIfAbsent false).1 = some .walAppendFailed ∧
    (walStoreWrite 10 ⟨[( ['k'], ⟨[118], 5⟩ )], []⟩ ['k'] ⟨[120], 0⟩
        .putIfAbsent false).2.mem ≠ [( ['k'], ⟨[118], 5⟩ )] := by
  constructor
  · decide
  · decide

/-- C2 (amended): if the WAL append inside `Write` fails after validation
passed, `Write` returns that error, appends no record, and leaves the
store observationally unchanged — the only physical change is the
validation read's lazy removal of an already-expired entry, which no read
at the same instant can distinguish; if the append inside `Expire` fails
after its validation passed, `Expire` returns false and the state is left
exactly unchanged. -/
theorem walStore_wal_failure_atomicity (now : Int) (st : WalSt)
    (k : List Char) (v : Entry) (mode : PutMode) (deadline : Int) :
    (writeValidationPasses now st.mem k mode →
      (walStoreWrite now st k v mode false).1 = some .walAppendFailed ∧
      (walStoreWrite now st k v mode false).2.walRecords = st.walRecords ∧
      memEquivAt now (walStoreWrite now st k v mode false).2.mem st.mem) ∧
    ((storeRead now st.mem k).1 ≠ none → 0 ≤ deadline →
      walStoreExpire now st k deadline false = (false, st)) := by
  constructor
  · intro hval
    cases mode with
    | putOverwrite =>
        refine ⟨by simp [walStoreWrite, walStoreWriteAppend],
          by simp [walStoreWrite, walStoreWriteAppend], ?_⟩
        have : (walStoreWrite now st k v .putOverwrite false).2.mem = st.mem := by
          simp [walStoreWrite, walStoreWriteAppend]
        rw [this]
        intro k'
        rfl
    | putIfAbsent =>
        have habs : (storeRead now st.mem k).1 = none := hval
        cases hres : storeRead now st.mem k with
        | mk fst snd =>
            cases fst with
            | some e => rw [hres] at habs; simp at habs
            | none =>
                refine ⟨by simp [walStoreWrite, hres, walStoreWriteAppend],
                  by simp [walStoreWrite, hres, walStoreWriteAppend], ?_⟩
                have hmem : (walStoreWrite now st k v .putIfAbsent false).2.mem = snd := by
                  simp [walStoreWrite, hres, walStoreWriteAppend]
                rw [hmem]
                have := storeRead_snd_memEquiv now st.mem k
                rw [hres] at this
                exact this
    | putUpdate =>
        have hpres : (storeRead now st.mem k).1 ≠ none := hval
        cases hres : storeRead now st.mem k with
        | mk fst snd =>
            cases fst with
            | none => rw [hres] at hpres; simp at hpres
            | some e =>
                refine ⟨by simp [walStoreWrite, hres, walStoreWriteAppend],
                  by simp [walStoreWrite, hres, walStoreWriteAppend], ?_⟩
                have hmem : (walStoreWrite now st k v .putUpdate false).2.mem = snd := by
                  simp [walStoreWrite, hres, walStoreWriteAppend]
                rw [hmem]
                have := storeRead_snd_memEquiv now st.mem k
                rw [hres] at this
                exact this
  · intro hpres hd
    cases hres : storeRead now st.mem k with
    | mk fst snd =>
        cases fst with
        | none => rw [hres] at hpres; simp at hpres
        | some e =>
            have hneg : ¬ deadline < 0 := by omega
            have hsnd : snd = st.mem := by
              cases hg : memGet st.mem k with
              | none => rw [storeRead_of_get_none now hg] at hres; simp at hres
              | some e' =>
                  by_cases hx : e'.ExpiresAtMillis ≠ 0 ∧ now ≥ e'.ExpiresAtMillis
                  · rw [storeRead_of_expired now hg hx] at hres
                    simp at hres
                  · rw [storeRead_of_live now hg hx] at hres
                    exact (Prod.mk.injEq _ _ _ _ ▸ hres).2.symm ▸ rfl
            subst hsnd
            simp [walStoreExpire, hres, hneg]

/-- C2 witness: a failing append on an `Overwrite` write and on an
`Expire` of a live key, at concrete states. -/
theorem walStore_wal_failure_atomicity_witness :
    ((walStoreWrite 0 ⟨[], []⟩ ['k'] ⟨[118], 0⟩ .putOverwrite false).1 =
        some .walAppendFailed ∧
      (walStoreWrite 0 ⟨[], []⟩ ['k'] ⟨[118], 0⟩ .putOverwrite false).2.walRecords = [] ∧
      memEquivAt 0 (walStoreWrite 0 ⟨[], []⟩ ['k'] ⟨[118], 0⟩ .putOverwrite false).2.mem []) ∧
    walStoreExpire 0 ⟨[( ['a'], ⟨[1], 0⟩ )], []⟩ ['a'] 9 false =
      (false, ⟨[( ['a'], ⟨[1], 0⟩ )], []⟩) := by
  constructor
  · exact (walStore_wal_failure_atomicity 0 ⟨[], []⟩ ['k'] ⟨[118], 0⟩
      .putOverwrite 0).1 trivial
  · exact (walStore_wal_failure_atomicity 0 ⟨[( ['a'], ⟨[1], 0⟩ )], []⟩
      ['a'] ⟨[0], 0⟩ .putOverwrite 9).2 (by decide) (by decide)

/-! ## C10 — Expire with deadline 0 clears the TTL -/

/-- C10: `walStore.Expire` with deadline 0 on a key that reads as present
(entry `e`, not expired at `now`) is not rejected — only negative
deadlines are — so the `Expire` record with deadline 0 is appended to the
WAL and applied to the store; and since a stored `ExpiresAtMillis` of 0
means "no expiration", the key thereafter reads as present at every
instant: the TTL is cleared, not expired immediately. -/
theorem walStore_expire_zero_clears_ttl (now : Int) (st : WalSt)
    (k : List Char) (e : Entry) (hget : memGet st.mem k = some e)
    (hlive : e.ExpiresAtMillis = 0 ∨ now < e.ExpiresAtMillis) :
    walStoreExpire now st k 0 true =
      (true, { mem := memSet st.mem k { e with ExpiresAtMillis := 0 },
               walRecords := st.walRecords ++
                 [{ rtype := .recordExpire, key := k, value := [], expire := 0 }] }) ∧
    (∀ t, (storeRead t (memSet st.mem k { e with ExpiresAtMillis := 0 }) k).1 =
      some { e with ExpiresAtMillis := 0 }) := by
  have hx : ¬(e.ExpiresAtMillis ≠ 0 ∧ now ≥ e.ExpiresAtMillis) := by
    rcases hlive with h | h
    · simp [h]
    · intro hc
      omega
  have hread : storeRead now st.mem k = (some e, st.mem) :=
    storeRead_of_live now hget hx
  constructor
  · have hexp : storeExpire now st.mem k 0 =
        (true, memSet st.mem k { e with ExpiresAtMillis := 0 }) :=
      storeExpire_of_live now 0 hget hx
    simp [walStoreExpire, hread, hexp]
  · intro t
    have hget' : memGet (memSet st.mem k { e with ExpiresAtMillis := 0 }) k =
        some { e with ExpiresAtMillis := 0 } := memGet_memSet_self _ _ _
    rw [storeRead_of_live t hget' (by simp)]

/-- C10 witness: a key with a pending TTL of 99 at instant 7; `Expire`
with deadline 0 succeeds, logs `EXPIRE` with deadline 0, and clears the
TTL. -/
theorem walStore_expire_zero_clears_ttl_witness :
    walStoreExpire 7 ⟨[( ['a'], ⟨[5], 99⟩ )], []⟩ ['a'] 0 true =
      (true, { mem := memSet [( ['a'], ⟨[5], 99⟩ )] ['a'] ⟨[5], 0⟩,
               walRecords := [(⟨.recordExpire, ['a'], [], 0⟩ : WALRecord)] }) ∧
    (∀ t, (storeRead t (memSet [( ['a'], ⟨[5], 99⟩ )] ['a'] ⟨[5], 0⟩) ['a']).1 =
      some ⟨[5], 0⟩) :=
  walStore_expire_zero_clears_ttl 7 ⟨[( ['a'], ⟨[5], 99⟩ )], []⟩ ['a']
    ⟨[5], 99⟩ (by decide) (by decide)

/-! ## Whitespace-splitting lemmas -/

theorem takeWhile_append_allq {α : Type} {q : α → Bool} {xs : List α}
    (ys : List α) (h : ∀ x ∈ xs, q x = true) :
    (xs ++ ys).takeWhile q = xs ++ ys.takeWhile q := by
  induction xs with
  | nil => rfl
  | cons x rest ih =>
      have hx : q x = true := h x (by simp)
      simp only [List.cons_append, List.takeWhile_cons, hx, if_pos]
      rw [ih (fun y hy => h y (by simp [hy]))]

theorem dropWhile_append_allq {α : Type} {q : α → Bool} {xs : List α}
    (ys : List α) (h : ∀ x ∈ xs, q x = true) :
    (xs ++ ys).dropWhile q = ys.dropWhile q := by
  induction xs with
  | nil => rfl
  | cons x rest ih =>
      have hx : q x = true := h x (by simp)
      simp only [List.cons_append, List.dropWhile_cons, hx, if_pos]
      exact ih (fun y hy => h y (by simp [hy]))

theorem takeWhile_all {α : Type} {q : α → Bool} {xs : List α}
    (h : ∀ x ∈ xs, q x = true) : xs.takeWhile q = xs := by
  have := @takeWhile_append_allq α q xs [] h
  simpa using this

theorem dropWhile_all {α : Type} {q : α → Bool} {xs : List α}
    (h : ∀ x ∈ xs, q x = true) : xs.dropWhile q = [] := by
  have := @dropWhile_append_allq α q xs [] h
  simpa using this

theorem mem_takeWhile_q {α : Type} {q : α → Bool} {xs : List α} {x : α}
    (h : x ∈ xs.takeWhile q) : q x = true := by
  induction xs with
  | nil => simp [List.takeWhile] at h
  | cons y rest ih =>
      rw [List.takeWhile_cons] at h
      by_cases hy : q y = true
      · rw [if_pos hy] at h
        rcases List.mem_cons.mp h with h1 | h1
        · rwa [h1]
        · exact ih h1
      · rw [if_neg hy] at h
        simp at h

theorem takeWhile_append_stop {α : Type} {q : α → Bool} {xs : List α}
    (ys : List α) (h : ¬ ∀ x ∈ xs, q x = true) :
    (xs ++ ys).takeWhile q = xs.takeWhile q := by
  induction xs with
  | nil => exact absurd (by simp) h
  | cons x rest ih =>
      by_cases hx : q x = true
      · have hr : ¬ ∀ y ∈ rest, q y = true := by
          intro hall
          exact h (by
            intro y hy
            rcases List.mem_cons.mp hy with h1 | h1
            · rwa [h1]
            · exact hall y h1)
        simp only [List.cons_append, List.takeWhile_cons, hx, if_pos]
        rw [ih hr]
      · have hx' : q x = false := by
          cases hqx : q x
          · rfl
          · exact absurd hqx hx
        simp only [List.cons_append, List.takeWhile_cons, hx', Bool.false_eq_true,
          if_neg, ite_false]

theorem dropWhile_append_stop {α : Type} {q : α → Bool} {xs : List α}
    (ys : List α) (h : ¬ ∀ x ∈ xs, q x = true) :
    (xs ++ ys).dropWhile q = xs.dropWhile q ++ ys := by
  induction xs with
  | nil => exact absurd (by simp) h
  | cons x rest ih =>
      by_cases hx : q x = true
      · have hr : ¬ ∀ y ∈ rest, q y = true := by
          intro hall
          exact h (by
            intro y hy
            rcases List.mem_cons.mp hy with h1 | h1
            · rwa [h1]
            · exact hall y h1)
        simp only [List.cons_append, List.dropWhile_cons, hx, if_pos]
        exact ih hr
      · have hx' : q x = false := by
          cases hqx : q x
          · rfl
          · exact absurd hqx hx
        simp only [List.cons_append, List.dropWhile_cons, hx', Bool.false_eq_true,
          if_neg, ite_false]

theorem fieldsGo_nil_of_allspace {s : List Char}
    (h : ∀ c ∈ s, isSpaceGo c = true) : fieldsGo s = [] := by
  induction s with
  | nil => simp [fieldsGo]
  | cons c rest ih =>
      rw [fieldsGo, if_pos (h c (by simp))]
      exact ih (fun x hx => h x (by simp [hx]))

theorem takeWhile_nospace_of_allspace {s : List Char}
    (h : ∀ c ∈ s, isSpaceGo c = true) :
    s.takeWhile (fun x => !isSpaceGo x) = [] := by
  cases s with
  | nil => rfl
  | cons c rest =>
      rw [List.takeWhile_cons]
      simp [h c (by simp)]

theorem dropWhile_nospace_of_allspace {s : List Char}
    (h : ∀ c ∈ s, isSpaceGo c = true) :
    s.dropWhile (fun x => !isSpaceGo x) = s := by
  cases s with
  | nil => rfl
  | cons c rest =>
      rw [List.dropWhile_cons]
      simp [h c (by simp)]

theorem fieldsGo_append_allspace (l : List Char) {s : List Char}
    (h : ∀ c ∈ s, isSpaceGo c = true) : fieldsGo (l ++ s) = fieldsGo l := by
  induction l using fieldsGo.induct with
  | case1 =>
      rw [List.nil_append, fieldsGo_nil_of_allspace h]
      simp [fieldsGo]
  | case2 c cs hc ih =>
      rw [List.cons_append, fieldsGo, if_pos hc, ih, fieldsGo, if_pos hc]
  | case3 c cs hc ih =>
      have hc' : ¬ isSpaceGo c = true := by simp [hc]
      rw [List.cons_append, fieldsGo, if_neg hc']
      rw [show fieldsGo (c :: cs) =
        (c :: cs.takeWhile (fun x => !isSpaceGo x)) ::
          fieldsGo (cs.dropWhile (fun x => !isSpaceGo x)) by
        rw [fieldsGo, if_neg hc']]
      by_cases hall : ∀ x ∈ cs, (fun x => !isSpaceGo x) x = true
      · rw [takeWhile_append_allq s hall, dropWhile_append_allq s hall]
        rw [takeWhile_nospace_of_allspace h, dropWhile_nospace_of_allspace h]
        rw [List.append_nil, takeWhile_all hall, dropWhile_all hall]
        rw [fieldsGo_nil_of_allspace h]
        simp [fieldsGo]
      · rw [takeWhile_append_stop s hall, dropWhile_append_stop s hall, ih]

theorem fieldsGo_dropWhile_space (l : List Char) :
    fieldsGo (l.dropWhile isSpaceGo) = fieldsGo l := by
  induction l with
  | nil => rfl
  | cons c rest ih =>
      by_cases hc : isSpaceGo c = true
      · rw [List.dropWhile_cons, if_pos hc, ih, fieldsGo, if_pos hc]
      · rw [List.dropWhile_cons, if_neg hc]

/-- Splitting into fields ignores the surrounding whitespace that
`strings.TrimSpace` removes. -/
theorem fieldsGo_trimSpace (l : List Char) :
    fieldsGo (trimSpace l) = fieldsGo l := by
  unfold trimSpace
  set t1 := l.dropWhile isSpaceGo with ht1
  have h2 : (t1.reverse.dropWhile isSpaceGo).reverse ++
      (t1.reverse.takeWhile isSpaceGo).reverse = t1 := by
    rw [← List.reverse_append, List.takeWhile_append_dropWhile, List.reverse_reverse]
  have hs : ∀ c ∈ (t1.reverse.takeWhile isSpaceGo).reverse, isSpaceGo c = true := by
    intro c hc
    exact mem_takeWhile_q (List.mem_reverse.mp hc)
  calc fieldsGo ((t1.reverse.dropWhile isSpaceGo).reverse)
      = fieldsGo ((t1.reverse.dropWhile isSpaceGo).reverse ++
          (t1.reverse.takeWhile isSpaceGo).reverse) :=
        (fieldsGo_append_allspace _ hs).symm
    _ = fieldsGo t1 := by rw [h2]
    _ = fieldsGo l := fieldsGo_dropWhile_space l

/-- A non-empty whitespace-free token followed by a space starts a new
field. -/
theorem fieldsGo_token_space (tok : List Char) (rest : List Char)
    (hne : tok ≠ []) (hns : ∀ c ∈ tok, isSpaceGo c = false) :
    fieldsGo (tok ++ ' ' :: rest) = tok :: fieldsGo rest := by
  cases tok with
  | nil => exact absurd rfl hne
  | cons c cs =>
      have hc : ¬ isSpaceGo c = true := by simp [hns c (by simp)]
      have hcs : ∀ x ∈ cs, (fun x => !isSpaceGo x) x = true := by
        intro x hx
        simp [hns x (by simp [hx])]
      rw [List.cons_append, fieldsGo, if_neg hc]
      rw [takeWhile_append_allq (' ' :: rest) hcs,
        dropWhile_append_allq (' ' :: rest) hcs]
      rw [List.takeWhile_cons, List.dropWhile_cons]
      have hsp : (!isSpaceGo ' ') = false := by decide
      rw [hsp]
      have hskip : fieldsGo (' ' :: rest) = fieldsGo rest := by
        rw [fieldsGo, if_pos (by decide)]
      simp only [Bool.false_eq_true, ite_false, List.append_nil, hskip]

/-- A non-empty whitespace-free token alone is one field. -/
theorem fieldsGo_token_nil (tok : List Char)
    (hne : tok ≠ []) (hns : ∀ c ∈ tok, isSpaceGo c = false) :
    fieldsGo tok = [tok] := by
  cases tok with
  | nil => exact absurd rfl hne
  | cons c cs =>
      have hc : ¬ isSpaceGo c = true := by simp [hns c (by simp)]
      have hcs : ∀ x ∈ cs, (fun x => !isSpaceGo x) x = true := by
        intro x hx
        simp [hns x (by simp [hx])]
      rw [fieldsGo, if_neg hc, takeWhile_all hcs, dropWhile_all hcs]
      simp [fieldsGo]

/-! ## C4 — the decode contract -/

/-- `DecodeRecord` agrees with the spec-shaped decoder everywhere. -/
theorem decode_eq_specDecode (line : List Char) :
    DecodeRecord line = specDecodeRecord line := by
  unfold DecodeRecord specDecodeRecord
  by_cases ht : trimSpace line = []
  · rw [if_pos ht]
    have hf : fieldsGo line = [] := by
      rw [← fieldsGo_trimSpace, ht]
      simp [fieldsGo]
    rw [hf]
  · rw [if_neg ht, fieldsGo_trimSpace]
    cases h : fieldsGo line with
    | nil => rfl
    | cons cmd args =>
        cases args with
        | nil => by_cases h1 : toUpperGo cmd = commandSet <;>
            by_cases h2 : toUpperGo cmd = commandExpire <;>
            simp [h1, h2]
        | cons a args2 =>
            cases args2 with
            | nil => by_cases h1 : toUpperGo cmd = commandSet <;>
                by_cases h2 : toUpperGo cmd = commandExpire <;>
                simp [h1, h2]
            | cons b args3 =>
                cases args3 with
                | nil => rfl
                | cons d args4 => by_cases h1 : toUpperGo cmd = commandSet <;>
                    by_cases h2 : toUpperGo cmd = commandExpire <;>
                    simp [h1, h2]

/-- C4: Decode contract. `DecodeRecord` trims surrounding whitespace and
splits on runs of whitespace (equivalently: it is determined by the
whitespace-split fields of the line) and matches the command token
case-insensitively; a `SET` line succeeds exactly when it has exactly 3
tokens and a valid standard-base64 third token, and invalid base64 yields
the base64 decode error, which is distinct from `InvalidRecord`; an
`EXPIRE` line succeeds exactly when it has exactly 3 tokens and a base-10
64-bit-integer third token; every other shape — wrong arity, unknown
command, empty line after trimming — yields `InvalidRecord`. -/
theorem decodeRecord_contract :
    (∀ line, DecodeRecord line = specDecodeRecord line) ∧
    DecodeErr.base64Error ≠ DecodeErr.invalidRecord :=
  ⟨decode_eq_specDecode, by decide⟩

/-! ## Base64 lemmas -/

theorem b64_dec_enc : ∀ v, v < 64 → b64DecChar (b64EncChar v) = some v := by
  decide

theorem b64EncChar_ne_pad : ∀ v, v < 64 → b64EncChar v ≠ '=' := by
  decide

theorem b64EncChar_nospace : ∀ v, v < 64 → isSpaceGo (b64EncChar v) = false := by
  decide

theorem base64_roundtrip (bs : List Nat) (h : ∀ b ∈ bs, b < 256) :
    base64Decode (base64Encode bs) = some bs := by
  induction bs using base64Encode.induct with
  | case1 => rfl
  | case2 a =>
      have ha : a < 256 := h a (by simp)
      have h1 := b64_dec_enc (a / 4) (by omega)
      have h2 := b64_dec_enc (a % 4 * 16) (by omega)
      simp only [base64Encode, base64Decode, h1, h2]
      simp only [if_pos rfl, and_self, ite_true, Option.some.injEq, List.cons.injEq,
        and_true]
      omega
  | case3 a b =>
      have ha : a < 256 := h a (by simp)
      have hb : b < 256 := h b (by simp)
      have h1 := b64_dec_enc (a / 4) (by omega)
      have h2 := b64_dec_enc (a % 4 * 16 + b / 16) (by omega)
      have h3 := b64_dec_enc (b % 16 * 4) (by omega)
      have hne3 : b64EncChar (b % 16 * 4) ≠ '=' := b64EncChar_ne_pad _ (by omega)
      simp only [base64Encode, base64Decode, h1, h2, h3, if_neg hne3]
      simp only [if_pos rfl, ite_true, Option.some.injEq, List.cons.injEq, and_true]
      constructor <;> omega
  | case4 a b c rest ih =>
      have ha : a < 256 := h a (by simp)
      have hb : b < 256 := h b (by simp)
      have hc : c < 256 := h c (by simp)
      have hrest : ∀ x ∈ rest, x < 256 := fun x hx => h x (by simp [hx])
      have h1 := b64_dec_enc (a / 4) (by omega)
      have h2 := b64_dec_enc (a % 4 * 16 + b / 16) (by omega)
      have h3 := b64_dec_enc (b % 16 * 4 + c / 64) (by omega)
      have h4 := b64_dec_enc (c % 64) (by omega)
      have hne3 : b64EncChar (b % 16 * 4 + c / 64) ≠ '=' :=
        b64EncChar_ne_pad _ (by omega)
      have hne4 : b64EncChar (c % 64) ≠ '=' := b64EncChar_ne_pad _ (by omega)
      simp only [base64Encode, base64Decode, h1, h2, h3, h4, if_neg hne3,
        if_neg hne4, ih hrest, Option.map_some', Option.some.injEq,
        List.cons.injEq, and_true]
      refine ⟨by omega, by omega, by omega⟩

theorem base64Encode_ne_nil {bs : List Nat} (h : bs ≠ []) :
    base64Encode bs ≠ [] := by
  match bs with
  | [] => exact absurd rfl h
  | [a] => simp [base64Encode]
  | [a, b] => simp [base64Encode]
  | a :: b :: c :: rest => simp [base64Encode]

theorem base64Encode_nospace (bs : List Nat) (h : ∀ b ∈ bs, b < 256) :
    ∀ ch ∈ base64Encode bs, isSpaceGo ch = false := by
  induction bs using base64Encode.induct with
  | case1 => simp [base64Encode]
  | case2 a =>
      have ha : a < 256 := h a (by simp)
      intro ch hch
      simp only [base64Encode, List.mem_cons, List.not_mem_nil, or_false] at hch
      rcases hch with h1 | h1 | h1 | h1 <;> subst h1
      · exact b64EncChar_nospace _ (by omega)
      · exact b64EncChar_nospace _ (by omega)
      · decide
      · decide
  | case3 a b =>
      have ha : a < 256 := h a (by simp)
      have hb : b < 256 := h b (by simp)
      intro ch hch
      simp only [base64Encode, List.mem_cons, List.not_mem_nil, or_false] at hch
      rcases hch with h1 | h1 | h1 | h1 <;> subst h1
      · exact b64EncChar_nospace _ (by omega)
      · exact b64EncChar_nospace _ (by omega)
      · exact b64EncChar_nospace _ (by omega)
      · decide
  | case4 a b c rest ih =>
      have ha : a < 256 := h a (by simp)
      have hb : b < 256 := h b (by simp)
      have hc : c < 256 := h c (by simp)
      have hrest : ∀ x ∈ rest, x < 256 := fun x hx => h x (by simp [hx])
      intro ch hch
      simp only [base64Encode, List.mem_cons] at hch
      rcases hch with h1 | h1 | h1 | h1 | h1
      · subst h1; exact b64EncChar_nospace _ (by omega)
      · subst h1; exact b64EncChar_nospace _ (by omega)
      · subst h1; exact b64EncChar_nospace _ (by omega)
      · subst h1; exact b64EncChar_nospace _ (by omega)
      · exact ih hrest ch h1

/-! ## Decimal lemmas -/

theorem digit_char_facts : ∀ d, d < 10 →
    digitVal (Char.ofNat (48 + d)) = some d ∧
    isSpaceGo (Char.ofNat (48 + d)) = false ∧
    Char.ofNat (48 + d) ≠ '+' ∧ Char.ofNat (48 + d) ≠ '-' := by
  decide

theorem natToChars_shape (n : Nat) :
    ∀ c ∈ natToChars n, ∃ d, d < 10 ∧ c = Char.ofNat (48 + d) := by
  induction n using natToChars.induct with
  | case1 n hn =>
      intro c hc
      rw [natToChars, dif_pos hn] at hc
      simp only [List.mem_singleton] at hc
      exact ⟨n, hn, hc⟩
  | case2 n hn ih =>
      intro c hc
      rw [natToChars, dif_neg hn] at hc
      rcases List.mem_append.mp hc with h1 | h1
      · exact ih c h1
      · simp only [List.mem_singleton] at h1
        exact ⟨n % 10, by omega, h1⟩

theorem natToChars_ne_nil (n : Nat) : natToChars n ≠ [] := by
  rw [natToChars]
  by_cases hn : n < 10
  · rw [dif_pos hn]
    simp
  · rw [dif_neg hn]
    simp

theorem parseDigitsAux_append (l1 l2 : List Char) (acc : Nat) :
    parseDigitsAux (l1 ++ l2) acc =
      (parseDigitsAux l1 acc).bind (fun a => parseDigitsAux l2 a) := by
  induction l1 generalizing acc with
  | nil => rfl
  | cons c cs ih =>
      cases hd : digitVal c with
      | none => simp [parseDigitsAux, hd]
      | some d => simp [parseDigitsAux, hd, ih]

theorem parseDigitsAux_natToChars (n : Nat) :
    ∀ acc, parseDigitsAux (natToChars n) acc =
      some (acc * 10 ^ (natToChars n).length + n) := by
  induction n using natToChars.induct with
  | case1 n hn =>
      intro acc
      rw [natToChars, dif_pos hn]
      have hd := (digit_char_facts n hn).1
      simp [parseDigitsAux, hd, pow_one]
  | case2 n hn ih =>
      intro acc
      rw [natToChars, dif_neg hn]
      rw [parseDigitsAux_append, ih acc]
      have hd := (digit_char_facts (n % 10) (by omega)).1
      simp only [Option.some_bind, parseDigitsAux, hd, Option.some.injEq,
        List.length_append, List.length_cons, List.length_nil, Nat.zero_add]
      rw [pow_succ]
      have hdm : n / 10 * 10 + n % 10 = n := by omega
      calc (acc * 10 ^ (natToChars (n / 10)).length + n / 10) * 10 + n % 10
          = acc * (10 ^ (natToChars (n / 10)).length * 10) +
              (n / 10 * 10 + n % 10) := by ring
        _ = acc * (10 ^ (natToChars (n / 10)).length * 10) + n := by rw [hdm]

theorem parseDigits_natToChars (n : Nat) : parseDigits (natToChars n) = some n := by
  cases hl : natToChars n with
  | nil => exact absurd hl (natToChars_ne_nil n)
  | cons c cs =>
      rw [parseDigits, ← hl, parseDigitsAux_natToChars n 0]
      simp

theorem parseInt64_natToChars (n : Nat) (h : n ≤ 2 ^ 63 - 1) :
    parseInt64 (natToChars n) = some (n : Int) := by
  cases hl : natToChars n with
  | nil => exact absurd hl (natToChars_ne_nil n)
  | cons c cs =>
      obtain ⟨d, hd, hc⟩ := natToChars_shape n c (by rw [hl]; simp)
      have hfacts := digit_char_facts d hd
      rw [parseInt64]
      rw [if_neg (by rw [hc]; exact hfacts.2.2.1)]
      rw [if_neg (by rw [hc]; exact hfacts.2.2.2)]
      rw [← hl, parseDigits_natToChars]
      simp only [Option.some_bind]
      rw [if_pos h]

/-! ## C3 — record codec round-trip -/

theorem dropLast_append_single {α : Type} (xs : List α) (x : α) :
    (xs ++ [x]).dropLast = xs := by
  induction xs with
  | nil => rfl
  | cons y ys ih =>
      cases ys with
      | nil => rfl
      | cons z zs => simp [List.dropLast, ih]

unseal fieldsGo in
/-- C3 counterexample: `EncodeRecord` accepts a `Set` whose key contains a
space (it only rejects empty keys), but the emitted line then splits into
four fields and `DecodeRecord` rejects it, so the round-trip fails for a
record the encoder accepts. -/
theorem encode_decode_roundtrip_counterexample :
    EncodeRecord (⟨.recordSet, ['a', ' ', 'b'], [118], 0⟩ : WALRecord) =
      some ("SET a b dg==\n".toList) ∧
    DecodeRecord (("SET a b dg==\n".toList).dropLast) = .error .invalidRecord := by
  constructor
  · rfl
  · rfl

/-- C3 (amended): for every record accepted by `EncodeRecord` whose key
contains no whitespace (with the Go-intrinsic bounds: value bytes < 256,
`Expire` an int64), `DecodeRecord` on the emitted line with the
terminating LF stripped succeeds and agrees with the original on the
command variant, the key, and the value (for `Set`) or the deadline (for
`Expire`). -/
theorem encode_decode_roundtrip (r : WALRecord) (l : List Char)
    (henc : EncodeRecord r = some l)
    (hkns : ∀ c ∈ r.key, isSpaceGo c = false)
    (hbytes : ∀ b ∈ r.value, b < 256)
    (hexp63 : r.expire < 2 ^ 63) :
    ∃ r', DecodeRecord l.dropLast = .ok r' ∧
      r'.rtype = r.rtype ∧ r'.key = r.key ∧
      (r.rtype = .recordSet → r'.value = r.value) ∧
      (r.rtype = .recordExpire → r'.expire = r.expire) := by
  cases hr : r.rtype with
  | recordSet =>
      rw [EncodeRecord, hr] at henc
      by_cases hcond : r.key = [] ∨ r.value = []
      · rw [if_pos hcond] at henc
        exact absurd henc (by simp)
      · rw [if_neg hcond] at henc
        push_neg at hcond
        obtain ⟨hk, hv⟩ := hcond
        have hl : l = (commandSet ++ ' ' :: (r.key ++ ' ' ::
            base64Encode r.value)) ++ ['\n'] := by
          have := (Option.some.injEq _ _).mp henc
          rw [← this]
          simp
        rw [hl, dropLast_append_single, decode_eq_specDecode]
        rw [specDecodeRecord, fieldsGo_token_space commandSet _ (by decide) (by decide),
          fieldsGo_token_space r.key _ hk hkns,
          fieldsGo_token_nil _ (base64Encode_ne_nil hv)
            (base64Encode_nospace _ hbytes)]
        dsimp only
        rw [if_pos (by decide : toUpperGo commandSet = commandSet)]
        rw [base64_roundtrip r.value hbytes]
        refine ⟨_, rfl, rfl, rfl, fun _ => rfl, ?_⟩
        intro hcontra
        exact absurd hcontra (by decide)
  | recordExpire =>
      rw [EncodeRecord, hr] at henc
      by_cases hcond : r.key = [] ∨ r.expire < 0
      · rw [if_pos hcond] at henc
        exact absurd henc (by simp)
      · rw [if_neg hcond] at henc
        push_neg at hcond
        obtain ⟨hk, hnn⟩ := hcond
        have hdigits : ∀ c ∈ natToChars r.expire.toNat, isSpaceGo c = false := by
          intro c hc
          obtain ⟨d, hd, hcd⟩ := natToChars_shape _ c hc
          rw [hcd]
          exact (digit_char_facts d hd).2.1
        have hl : l = (commandExpire ++ ' ' :: (r.key ++ ' ' ::
            natToChars r.expire.toNat)) ++ ['\n'] := by
          have := (Option.some.injEq _ _).mp henc
          rw [← this]
          simp
        rw [hl, dropLast_append_single, decode_eq_specDecode]
        rw [specDecodeRecord, fieldsGo_token_space commandExpire _ (by decide) (by decide),
          fieldsGo_token_space r.key _ hk hkns,
          fieldsGo_token_nil _ (natToChars_ne_nil _) hdigits]
        dsimp only
        rw [if_neg (by decide : ¬ toUpperGo commandExpire = commandSet)]
        rw [if_pos (by decide : toUpperGo commandExpire = commandExpire)]
        have htn : r.expire.toNat ≤ 2 ^ 63 - 1 := by omega
        rw [parseInt64_natToChars _ htn]
        refine ⟨_, rfl, rfl, rfl, ?_, ?_⟩
        · intro hcontra
          exact absurd hcontra (by decide)
        · intro _
          exact Int.toNat_of_nonneg hnn

unseal fieldsGo natToChars in
/-- C3 witness: a concrete `Set` and a concrete `Expire` record
round-trip through the codec. -/
theorem encode_decode_roundtrip_witness :
    (∃ r', DecodeRecord (("SET k dg==\n".toList).dropLast) = .ok r' ∧
      r'.rtype = RecordType.recordSet ∧ r'.key = ['k'] ∧
      (RecordType.recordSet = RecordType.recordSet → r'.value = [118]) ∧
      (RecordType.recordSet = RecordType.recordExpire → r'.expire = 0)) ∧
    (∃ r', DecodeRecord (("EXPIRE k 35\n".toList).dropLast) = .ok r' ∧
      r'.rtype = RecordType.recordExpire ∧ r'.key = ['k'] ∧
      (RecordType.recordExpire = RecordType.recordSet → r'.value = []) ∧
      (RecordType.recordExpire = RecordType.recordExpire → r'.expire = 35)) :=
  ⟨encode_decode_roundtrip (⟨.recordSet, ['k'], [118], 0⟩ : WALRecord)
      ("SET k dg==\n".toList) rfl (by decide) (by decide) (by decide),
   encode_decode_roundtrip (⟨.recordExpire, ['k'], [], 35⟩ : WALRecord)
      ("EXPIRE k 35\n".toList) rfl (by decide) (by decide) (by decide)⟩

/-! ## C7 — recovery replay semantics -/

unseal fieldsGo in
/-- C7: During startup replay, every decoded `Set` record is applied with
`PutOverwrite` and `ExpiresAtMillis = 0`; every `Expire` record with a
negative deadline makes recovery fail with `InvalidRecord` — in
particular, replaying a WAL containing the line `EXPIRE key -10` fails
with `InvalidRecord` — and every `Expire` record with a non-negative
deadline is applied through the store's `Expire` with its boolean result
ignored. -/
theorem recovery_replay_semantics (now : Int) (m : Mem) (r : WALRecord) :
    (r.rtype = .recordSet →
      replayApply now m r = .ok (memSet m r.key ⟨r.value, 0⟩)) ∧
    (r.rtype = .recordExpire → r.expire < 0 →
      replayApply now m r = .error .invalidRecord) ∧
    (r.rtype = .recordExpire → 0 ≤ r.expire →
      replayApply now m r = .ok (storeExpire now m r.key r.expire).2) ∧
    walReplay 0 ["EXPIRE key -10".toList] ([] : Mem) = .error .invalidRecord := by
  refine ⟨?_, ?_, ?_, ?_⟩
  · intro h
    simp [replayApply, h, storeWriteMem]
  · intro h hneg
    simp [replayApply, h, hneg]
  · intro h hnn
    have hneg : ¬ r.expire < 0 := by omega
    simp [replayApply, h, hneg]
  · rfl

/-- C7 witness: each replay rule at a concrete record, and nothing more
(the closed `EXPIRE key -10` conjunct is re-derived through the theorem). -/
theorem recovery_replay_semantics_witness :
    replayApply 0 ([] : Mem) (⟨.recordSet, ['k'], [7], 0⟩ : WALRecord) =
      .ok (memSet ([] : Mem) ['k'] ⟨[7], 0⟩) ∧
    replayApply 0 ([] : Mem) (⟨.recordExpire, ['k'], [], -10⟩ : WALRecord) =
      .error .invalidRecord ∧
    replayApply 0 ([(['k'], ⟨[7], 0⟩)] : Mem) (⟨.recordExpire, ['k'], [], 5⟩ : WALRecord) =
      .ok (storeExpire 0 ([(['k'], ⟨[7], 0⟩)] : Mem) ['k'] 5).2 ∧
    walReplay 0 ["EXPIRE key -10".toList] ([] : Mem) = .error .invalidRecord :=
  ⟨(recovery_replay_semantics 0 ([] : Mem) ⟨.recordSet, ['k'], [7], 0⟩).1 rfl,
   (recovery_replay_semantics 0 ([] : Mem) ⟨.recordExpire, ['k'], [], -10⟩).2.1
     rfl (by decide),
   (recovery_replay_semantics 0 ([(['k'], ⟨[7], 0⟩)] : Mem)
     ⟨.recordExpire, ['k'], [], 5⟩).2.2.1 rfl (by decide),
   (recovery_replay_semantics 0 ([] : Mem) ⟨.recordSet, [], [], 0⟩).2.2.2⟩

/-! ## Snapshot codec lemmas -/

theorem toLE_length (w n : Nat) : (toLE w n).length = w := by
  induction w generalizing n with
  | zero => rfl
  | succ w ih => simp [toLE, ih]

theorem leVal_toLE (w n : Nat) (h : n < 2 ^ (8 * w)) : leVal (toLE w n) = n := by
  induction w generalizing n with
  | zero =>
      simp only [Nat.mul_zero, pow_zero, Nat.lt_one_iff] at h
      simp [toLE, leVal, h]
  | succ w ih =>
      have hdiv : n / 256 < 2 ^ (8 * w) := by
        have h8 : 2 ^ (8 * (w + 1)) = 2 ^ (8 * w) * 256 := by
          rw [Nat.mul_succ, pow_add]
          norm_num
        rw [h8] at h
        omega
      simp only [toLE, leVal, ih (n / 256) hdiv]
      omega

theorem take_append_len {α : Type} {xs : List α} (ys : List α) {n : Nat}
    (h : xs.length = n) : (xs ++ ys).take n = xs := by
  rw [List.take_append_eq_append_take, h]
  simp [List.take_of_length_le (le_of_eq h)]

theorem drop_append_len {α : Type} {xs : List α} (ys : List α) {n : Nat}
    (h : xs.length = n) : (xs ++ ys).drop n = ys := by
  rw [List.drop_append_eq_append_drop, h]
  simp [List.drop_of_length_le (le_of_eq h)]

theorem sign32_of_lt {v : Nat} (h : v < 2 ^ 31) : sign32 v = (v : Int) := by
  rw [sign32, if_pos h]

theorem sign64_emod (e : Int) (h1 : -(2 : Int) ^ 63 ≤ e) (h2 : e < 2 ^ 63) :
    sign64 ((e % 2 ^ 64).toNat) = e := by
  rw [sign64]
  split
  · omega
  · omega

theorem encodeItem_length (it : Item) :
    (encodeItem it).length = 16 + it.key.length + it.value.length := by
  simp [encodeItem, List.length_append, toLE_length]
  omega

/-- One complete item at the head of the byte stream is decoded exactly,
and loading continues on the remainder. -/
theorem snapshotLoad_item (key value : List Nat) (e : Int) (rest : List Nat)
    (hk : key.length < 2 ^ 31) (hv : value.length < 2 ^ 31)
    (he1 : -(2 : Int) ^ 63 ≤ e) (he2 : e < 2 ^ 63) :
    snapshotLoad (toLE 4 (key.length % 2 ^ 32) ++ (key ++
        (toLE 4 (value.length % 2 ^ 32) ++ (value ++
          (toLE 8 ((e % 2 ^ 64).toNat) ++ rest))))) =
      ((⟨key, value, e⟩ : Item) :: (snapshotLoad rest).1, (snapshotLoad rest).2) := by
  have hmk : key.length % 2 ^ 32 = key.length := Nat.mod_eq_of_lt (by omega)
  have hmv : value.length % 2 ^ 32 = value.length := Nat.mod_eq_of_lt (by omega)
  have hme : (e % 2 ^ 64).toNat < 2 ^ 64 := by omega
  rw [snapshotLoad]
  rw [if_neg (by
    intro hcontra
    have := congrArg List.length hcontra
    simp [List.length_append, toLE_length] at this)]
  rw [if_neg (by
    simp only [List.length_append, toLE_length]
    omega)]
  rw [take_append_len _ (toLE_length _ _), drop_append_len _ (toLE_length _ _)]
  rw [leVal_toLE 4 _ (by omega), hmk, sign32_of_lt hk]
  rw [if_neg (by omega)]
  have htn : ((key.length : Int)).toNat = key.length := by omega
  rw [htn]
  rw [if_neg (by
    simp only [List.length_append, toLE_length]
    omega)]
  rw [take_append_len _ rfl, drop_append_len _ rfl]
  rw [if_neg (by
    simp only [List.length_append, toLE_length]
    omega)]
  rw [take_append_len _ (toLE_length _ _), drop_append_len _ (toLE_length _ _)]
  rw [leVal_toLE 4 _ (by omega), hmv, sign32_of_lt hv]
  rw [if_neg (by omega)]
  have htnv : ((value.length : Int)).toNat = value.length := by omega
  rw [htnv]
  rw [if_neg (by
    simp only [List.length_append, toLE_length]
    omega)]
  rw [take_append_len _ rfl, drop_append_len _ rfl]
  rw [if_neg (by
    simp only [List.length_append, toLE_length]
    omega)]
  rw [take_append_len _ (toLE_length _ _), drop_append_len _ (toLE_length _ _)]
  rw [leVal_toLE 8 _ (by omega), sign64_emod e he1 he2]

/-- The in-range condition under which one item's wire image is exact:
the Go-intrinsic int32/int64 bounds. -/
def itemInRange (it : Item) : Prop :=
  it.key.length < 2 ^ 31 ∧ it.value.length < 2 ^ 31 ∧
    -(2 : Int) ^ 63 ≤ it.expiresAt ∧ it.expiresAt < 2 ^ 63

instance (it : Item) : Decidable (itemInRange it) := by
  unfold itemInRange
  infer_instance

theorem snapshotLoad_encodeItem (it : Item) (rest : List Nat)
    (h : itemInRange it) :
    snapshotLoad (encodeItem it ++ rest) =
      (it :: (snapshotLoad rest).1, (snapshotLoad rest).2) := by
  obtain ⟨hk, hv, he1, he2⟩ := h
  have hstruct : encodeItem it ++ rest =
      toLE 4 (it.key.length % 2 ^ 32) ++ (it.key ++
        (toLE 4 (it.value.length % 2 ^ 32) ++ (it.value ++
          (toLE 8 ((it.expiresAt % 2 ^ 64).toNat) ++ rest)))) := by
    simp [encodeItem, List.append_assoc]
  rw [hstruct, snapshotLoad_item it.key it.value it.expiresAt rest hk hv he1 he2]

/-! ## C5 — snapshot round-trip -/

/-- C5: Snapshot round-trip. For every finite sequence of items (with the
Go-intrinsic bounds: key and value lengths below 2^31, expiry an int64),
loading the bytes written for it succeeds and delivers exactly the same
items, field-wise equal and in order; the empty sequence produces a
zero-byte snapshot that loads successfully with zero items. -/
theorem snapshot_roundtrip (I : List Item) (h : ∀ it ∈ I, itemInRange it) :
    snapshotLoad (snapshotWrite I) = (I, false) ∧
    snapshotWrite ([] : List Item) = [] ∧
    snapshotLoad ([] : List Nat) = ([], false) := by
  refine ⟨?_, rfl, by rw [snapshotLoad]; simp⟩
  induction I with
  | nil => rw [snapshotWrite, snapshotLoad]; simp
  | cons it restI ih =>
      rw [snapshotWrite, snapshotLoad_encodeItem it _ (h it (by simp))]
      rw [ih (fun x hx => h x (by simp [hx]))]

/-- C5 witness: a two-item sequence round-trips; the empty snapshot is
zero bytes and loads empty. -/
theorem snapshot_roundtrip_witness :
    snapshotLoad (snapshotWrite [⟨[97], [98, 99], 5⟩, ⟨[100], [], -3⟩]) =
      ([⟨[97], [98, 99], 5⟩, ⟨[100], [], -3⟩], false) ∧
    snapshotWrite ([] : List Item) = [] ∧
    snapshotLoad ([] : List Nat) = ([], false) :=
  snapshot_roundtrip [⟨[97], [98, 99], 5⟩, ⟨[100], [], -3⟩] (by decide)

/-! ## C6 — snapshot truncation -/

/-- A proper non-empty byte-level cut inside a single encoded item makes
`Load` fail before that item is delivered. -/
theorem snapshotLoad_truncated_item (it : Item) (q : Nat)
    (hk : it.key.length < 2 ^ 31) (hv : it.value.length < 2 ^ 31)
    (hq1 : 1 ≤ q) (hq2 : q < (encodeItem it).length) :
    snapshotLoad ((encodeItem it).take q) = ([], true) := by
  have hmk : it.key.length % 2 ^ 32 = it.key.length := Nat.mod_eq_of_lt (by omega)
  have hmv : it.value.length % 2 ^ 32 = it.value.length := Nat.mod_eq_of_lt (by omega)
  have hlen := encodeItem_length it
  have hstruct : encodeItem it = toLE 4 (it.key.length % 2 ^ 32) ++ (it.key ++
      (toLE 4 (it.value.length % 2 ^ 32) ++ (it.value ++
        toLE 8 ((it.expiresAt % 2 ^ 64).toNat)))) := by
    simp [encodeItem, List.append_assoc]
  rw [hstruct]
  by_cases c1 : q < 4
  · rw [snapshotLoad]
    rw [if_neg (by
      intro hcontra
      have := congrArg List.length hcontra
      rw [List.length_take] at this
      simp only [List.length_append, toLE_length, List.length_nil] at this
      omega)]
    rw [if_pos (by
      rw [List.length_take]
      simp only [List.length_append, toLE_length]
      omega)]
  · push_neg at c1
    rw [List.take_append_eq_append_take,
      List.take_of_length_le (by rw [toLE_length]; omega), toLE_length]
    rw [snapshotLoad]
    rw [if_neg (by
      intro hcontra
      have := congrArg List.length hcontra
      simp only [List.length_append, toLE_length, List.length_nil] at this
      omega)]
    rw [if_neg (by
      simp only [List.length_append, toLE_length]
      omega)]
    rw [take_append_len _ (toLE_length _ _), drop_append_len _ (toLE_length _ _)]
    rw [leVal_toLE 4 _ (by omega), hmk, sign32_of_lt hk]
    rw [if_neg (by omega)]
    have htn : ((it.key.length : Int)).toNat = it.key.length := by omega
    rw [htn]
    by_cases c2 : q - 4 < it.key.length
    · rw [if_pos (by
        rw [List.length_take]
        simp only [List.length_append, toLE_length]
        omega)]
    · push_neg at c2
      rw [List.take_append_eq_append_take,
        List.take_of_length_le (by omega)]
      rw [if_neg (by
        simp only [List.length_append, List.length_take, toLE_length]
        omega)]
      rw [take_append_len _ rfl, drop_append_len _ rfl]
      by_cases c3 : q - 4 - it.key.length < 4
      · rw [if_pos (by
          rw [List.length_take]
          simp only [List.length_append, toLE_length]
          omega)]
      · push_neg at c3
        rw [List.take_append_eq_append_take,
          List.take_of_length_le (by rw [toLE_length]; omega), toLE_length]
        rw [if_neg (by
          simp only [List.length_append, toLE_length]
          omega)]
        rw [take_append_len _ (toLE_length _ _), drop_append_len _ (toLE_length _ _)]
        rw [leVal_toLE 4 _ (by omega), hmv, sign32_of_lt hv]
        rw [if_neg (by omega)]
        have htnv : ((it.value.length : Int)).toNat = it.value.length := by omega
        rw [htnv]
        by_cases c4 : q - 4 - it.key.length - 4 < it.value.length
        · rw [if_pos (by
            rw [List.length_take]
            simp only [List.length_append, toLE_length]
            omega)]
        · push_neg at c4
          rw [List.take_append_eq_append_take,
            List.take_of_length_le (by omega)]
          rw [if_neg (by
            simp only [List.length_append, List.length_take, toLE_length]
            omega)]
          rw [take_append_len _ rfl, drop_append_len _ rfl]
          rw [if_pos (by
            rw [List.length_take, toLE_length]
            omega)]

unseal snapshotLoad in
/-- C6 counterexample: a valid two-item snapshot truncated by one byte (a
cut inside the second item, not at an item boundary). `Load` does return
an error, but it is not true that it "applies zero items": the first,
complete item has already been delivered to the callback. -/
theorem snapshot_truncation_counterexample :
    (snapshotLoad ((snapshotWrite [⟨[97], [98], 5⟩, ⟨[99], [100], 6⟩]).dropLast)).2
      = true ∧
    (snapshotLoad ((snapshotWrite [⟨[97], [98], 5⟩, ⟨[99], [100], 6⟩]).dropLast)).1
      = [⟨[97], [98], 5⟩] := by
  constructor
  · rfl
  · rfl

/-- C6 (amended): for every truncation of a valid snapshot byte stream
that does not end at an item boundary — i.e. the truncated stream is the
full encodings of the items `J` followed by a proper non-empty cut of the
next item's encoding — `Load` returns an error, delivers exactly the
complete items `J` that precede the cut, and never delivers a partial
item; "zero items" holds only when the cut falls inside the first item. -/
theorem snapshot_truncation (J : List Item) (i : Item) (q : Nat)
    (hJ : ∀ it ∈ J, itemInRange it) (hik : i.key.length < 2 ^ 31)
    (hiv : i.value.length < 2 ^ 31) (hq1 : 1 ≤ q)
    (hq2 : q < (encodeItem i).length) :
    snapshotLoad (snapshotWrite J ++ (encodeItem i).take q) = (J, true) := by
  induction J with
  | nil =>
      rw [snapshotWrite, List.nil_append]
      exact snapshotLoad_truncated_item i q hik hiv hq1 hq2
  | cons it restJ ih =>
      rw [snapshotWrite, List.append_assoc,
        snapshotLoad_encodeItem it _ (hJ it (by simp))]
      rw [ih (fun x hx => hJ x (by simp [hx]))]

/-- C6 witness: the amended statement at the concrete two-item stream of
the counterexample (one complete item, then a 17-byte cut of the second
18-byte item). -/
theorem snapshot_truncation_witness :
    snapshotLoad (snapshotWrite [(⟨[97], [98], 5⟩ : Item)] ++
        (encodeItem ⟨[99], [100], 6⟩).take 17) = ([⟨[97], [98], 5⟩], true) :=
  snapshot_truncation [⟨[97], [98], 5⟩] ⟨[99], [100], 6⟩ 17 (by decide)
    (by decide) (by decide) (by decide) (by decide)

/-! ## C8 — compaction ordering and failure containment -/

/-- C8: In every `Compact` execution: the WAL rotation is requested only
after the temp snapshot was written, fsynced and renamed over the
snapshot path (whenever the rotate event occurs, the event trace is
exactly create-write-sync-rename-rotate and the snapshot path holds the
new snapshot); a rename failure after fsync returns an error, leaves the
prior snapshot intact, removes the temp file, and never requests
rotation; a rotation failure is surfaced while the newly renamed snapshot
remains valid; and no run of `Compact` leaves its temp file behind (in
particular, on any failure before the rename the temp file is removed). -/
theorem compact_ordering_and_failure_containment (c : CompactIn)
    (items : List Item) (fs : CompactFS) (htemp : fs.tempExists = false) :
    (CompactEv.evRotateWal ∈ (walStoreCompact c items fs).2.2 →
      (walStoreCompact c items fs).2.2 =
        [.evCreateTemp, .evWriteSnap, .evSyncTemp, .evRenameSnap, .evRotateWal] ∧
      (walStoreCompact c items fs).2.1.snapshot = some items) ∧
    (c.iterable = true → c.rotatable = true → c.mkdirOk = true →
      c.createTempOk = true → c.writeOk = true → c.syncOk = true →
      c.renameOk = false →
      (walStoreCompact c items fs).1 = some .renameFailed ∧
      (walStoreCompact c items fs).2.1.snapshot = fs.snapshot ∧
      CompactEv.evRotateWal ∉ (walStoreCompact c items fs).2.2) ∧
    (c.iterable = true → c.rotatable = true → c.mkdirOk = true →
      c.createTempOk = true → c.writeOk = true → c.syncOk = true →
      c.renameOk = true → c.rotateOk = false →
      (walStoreCompact c items fs).1 = some .rotateFailed ∧
      (walStoreCompact c items fs).2.1.snapshot = some items) ∧
    (walStoreCompact c items fs).2.1.tempExists = false := by
  obtain ⟨ib, rb, mb, cb, wb, sb, rnb, rob⟩ := c
  cases ib <;> cases rb <;> cases mb <;> cases cb <;> cases wb <;> cases sb <;>
    cases rnb <;> cases rob <;>
    simp [walStoreCompact, htemp]

/-- C8 witness: a rename failure (prior snapshot kept, no rotation) and a
rotation failure (new snapshot in place), plus the temp-file invariant, at
concrete inputs. -/
theorem compact_ordering_witness :
    ((walStoreCompact ⟨true, true, true, true, true, true, false, true⟩
        [⟨[1], [2], 3⟩] ⟨some [⟨[9], [9], 9⟩], false⟩).1 = some .renameFailed ∧
      (walStoreCompact ⟨true, true, true, true, true, true, false, true⟩
        [⟨[1], [2], 3⟩] ⟨some [⟨[9], [9], 9⟩], false⟩).2.1.snapshot =
          some [⟨[9], [9], 9⟩] ∧
      CompactEv.evRotateWal ∉
        (walStoreCompact ⟨true, true, true, true, true, true, false, true⟩
          [⟨[1], [2], 3⟩] ⟨some [⟨[9], [9], 9⟩], false⟩).2.2) ∧
    ((walStoreCompact ⟨true, true, true, true, true, true, true, false⟩
        [⟨[1], [2], 3⟩] ⟨some [⟨[9], [9], 9⟩], false⟩).1 = some .rotateFailed ∧
      (walStoreCompact ⟨true, true, true, true, true, true, true, false⟩
        [⟨[1], [2], 3⟩] ⟨some [⟨[9], [9], 9⟩], false⟩).2.1.snapshot =
          some [⟨[1], [2], 3⟩]) ∧
    (walStoreCompact ⟨true, true, true, true, true, true, true, true⟩
        [⟨[1], [2], 3⟩] ⟨some [⟨[9], [9], 9⟩], false⟩).2.1.tempExists = false :=
  ⟨(compact_ordering_and_failure_containment
      ⟨true, true, true, true, true, true, false, true⟩ [⟨[1], [2], 3⟩]
      ⟨some [⟨[9], [9], 9⟩], false⟩ rfl).2.1 rfl rfl rfl rfl rfl rfl rfl,
   (compact_ordering_and_failure_containment
      ⟨true, true, true, true, true, true, true, false⟩ [⟨[1], [2], 3⟩]
      ⟨some [⟨[9], [9], 9⟩], false⟩ rfl).2.2.1 rfl rfl rfl rfl rfl rfl rfl rfl,
   (compact_ordering_and_failure_containment
      ⟨true, true, true, true, true, true, true, true⟩ [⟨[1], [2], 3⟩]
      ⟨some [⟨[9], [9], 9⟩], false⟩ rfl).2.2.2⟩

/-! ## C9 — shutdown contract (code bug) -/

/-- C9 is violated by the code on both halves, as this evaluation of the
embedded `walStore.Close` shows: when the final best-effort `Compact`
fails (for example with the capability error of a non-`Iterable`
underlying store), `Close` returns that error without ever calling
`wal.Close` (`walClosed = false`), contradicting "the WAL Close is still
performed"; and a second `Close` call runs `close(s.doneChan)` on an
already-closed channel, which panics in Go, contradicting "calling Close
multiple times is safe". -/
theorem walStore_close_bug :
    walStoreClose false (some .notIterable) true =
      .returned (some (.compactFailed .notIterable)) false ∧
    walStoreClose true none true = .panicked :=
  ⟨rfl, rfl⟩

end Hermes
